import Mathlib

/-!
Verification of the message-confidentiality core of the chat application
(`src/crypto_utils.py`, class `CryptoUtils`).

Modelling conventions:
* Python `bytes` values are lists of naturals (`List Nat`), well-formed when
  every element is below 256 (`ValidBytes`).
* Python `str` values on the wire (ciphertext strings, password records) are
  lists of characters (`List Char`); plaintext messages are Lean `String`s.
* A Python function that can raise is modelled as returning `Option`
  (`none` = the exception path, which `CryptoUtils` converts into its
  `Exception("Failed to ...")` errors, i.e. `EncryptionError` /
  `DecryptionError` in the specification's vocabulary).
* The external primitives — the `PKCS1_OAEP` cipher object obtained from an
  RSA key, the `hashlib.pbkdf2_hmac` KDF, and `get_random_bytes` — are
  parameters of the embedded operations, constrained in each theorem by the
  contracts their libraries document.  Everything the repository itself
  computes (UTF-8 codec, base64 codec, chunk splitting and joining, the
  `|`-separated wire format, the salt‖hash record layout, byte comparison)
  is implemented and verified directly.
-/

namespace ChatApp

/-- A Python `bytes` value: every byte is below 256. -/
def ValidBytes (l : List Nat) : Prop := ∀ b ∈ l, b < 256

instance : DecidablePred ValidBytes := fun l =>
  List.decidableBAll (· < 256) l

/-! ## Base64 (Python `base64.b64encode` / `base64.b64decode`) -/

/-- The RFC 4648 standard base64 alphabet used by Python `base64.b64encode`:
indices 0–25 map to `A`–`Z`, 26–51 to `a`–`z`, 52–61 to `0`–`9`,
62 to `+` and 63 to `/`. -/
def b64Char (n : Nat) : Char :=
  if n < 26 then Char.ofNat (65 + n)
  else if n < 52 then Char.ofNat (97 + (n - 26))
  else if n < 62 then Char.ofNat (48 + (n - 52))
  else if n = 62 then '+' else '/'

/-- Index of a character in the standard base64 alphabet, `none` when the
character is not in the alphabet. -/
def b64CharVal (c : Char) : Option Nat :=
  if 65 ≤ c.toNat ∧ c.toNat ≤ 90 then some (c.toNat - 65)
  else if 97 ≤ c.toNat ∧ c.toNat ≤ 122 then some (c.toNat - 97 + 26)
  else if 48 ≤ c.toNat ∧ c.toNat ≤ 57 then some (c.toNat - 48 + 52)
  else if c.toNat = 43 then some 62
  else if c.toNat = 47 then some 63
  else none

/-- Python `base64.b64encode` on a byte string, as the character list of the
resulting ASCII string: each full group of three bytes becomes four alphabet
characters; a final group of one or two bytes is completed with `=` padding. -/
def b64encode : List Nat → List Char
  | [] => []
  | [a] =>
    let t := a * 16
    [b64Char (t / 64), b64Char (t % 64), '=', '=']
  | [a, b] =>
    let t := (a * 256 + b) * 4
    [b64Char (t / 4096), b64Char (t / 64 % 64), b64Char (t % 64), '=']
  | a :: b :: c :: rest =>
    let w := a * 65536 + b * 256 + c
    b64Char (w / 262144) :: b64Char (w / 4096 % 64) :: b64Char (w / 64 % 64) ::
      b64Char (w % 64) :: b64encode rest

/-- Decoding of an already-filtered base64 character stream, four characters at
a time, mirroring `binascii.a2b_base64`: `=` padding may only close the final
group, and a stream whose length is not a multiple of four is an error
(`binascii.Error`, modelled by `none`). -/
def b64decodeGroups : List Char → Option (List Nat)
  | [] => some []
  | c1 :: c2 :: c3 :: c4 :: rest =>
    match b64CharVal c1, b64CharVal c2 with
    | some v1, some v2 =>
      if c3 = '=' then
        if c4 = '=' ∧ rest = [] then some [(v1 * 64 + v2) / 16] else none
      else
        match b64CharVal c3 with
        | some v3 =>
          if c4 = '=' then
            if rest = [] then
              some [(v1 * 4096 + v2 * 64 + v3) / 1024,
                    (v1 * 4096 + v2 * 64 + v3) / 4 % 256]
            else none
          else
            match b64CharVal c4 with
            | some v4 =>
              (b64decodeGroups rest).map
                (fun ds =>
                  (v1 * 262144 + v2 * 4096 + v3 * 64 + v4) / 65536 ::
                  (v1 * 262144 + v2 * 4096 + v3 * 64 + v4) / 256 % 256 ::
                  (v1 * 262144 + v2 * 4096 + v3 * 64 + v4) % 256 :: ds)
            | none => none
        | none => none
    | _, _ => none
  | _ => none

/-- Python `base64.b64decode` with the default `validate=False`: characters
that are neither in the base64 alphabet nor `=` are discarded, and the
remainder is decoded in groups of four. `none` models the raised
`binascii.Error`. -/
def b64decode (l : List Char) : Option (List Nat) :=
  b64decodeGroups (l.filter (fun c => (b64CharVal c).isSome || c == '='))

theorem b64CharVal_b64Char : ∀ n, n < 64 → b64CharVal (b64Char n) = some n := by
  decide

theorem b64Char_ne_eq : ∀ n, n < 64 → b64Char n ≠ '=' ∧ b64Char n ≠ '|' := by
  decide

/-- Every character that `b64encode` emits on well-formed bytes is either an
alphabet character or `=`. -/
theorem mem_b64encode (l : List Nat) (hv : ValidBytes l) :
    ∀ c ∈ b64encode l, (b64CharVal c).isSome = true ∨ c = '=' := by
  match l with
  | [] => intro c hc; simp [b64encode] at hc
  | [a] =>
    have ha : a < 256 := hv a (by simp)
    intro c hc
    simp only [b64encode, List.mem_cons, List.not_mem_nil, or_false] at hc
    rcases hc with h | h | h | h
    · left; subst h; rw [b64CharVal_b64Char _ (by omega)]; rfl
    · left; subst h; rw [b64CharVal_b64Char _ (by omega)]; rfl
    · right; exact h
    · right; exact h
  | [a, b] =>
    have ha : a < 256 := hv a (by simp)
    have hb : b < 256 := hv b (by simp)
    intro c hc
    simp only [b64encode, List.mem_cons, List.not_mem_nil, or_false] at hc
    rcases hc with h | h | h | h
    · left; subst h; rw [b64CharVal_b64Char _ (by omega)]; rfl
    · left; subst h; rw [b64CharVal_b64Char _ (by omega)]; rfl
    · left; subst h; rw [b64CharVal_b64Char _ (by omega)]; rfl
    · right; exact h
  | a :: b :: d :: rest =>
    have ha : a < 256 := hv a (by simp)
    have hb : b < 256 := hv b (by simp)
    have hd : d < 256 := hv d (by simp)
    have hrest : ValidBytes rest := fun x hx => hv x (by simp [hx])
    intro c hc
    simp only [b64encode, List.mem_cons] at hc
    rcases hc with h | h | h | h | h
    · left; subst h; rw [b64CharVal_b64Char _ (by omega)]; rfl
    · left; subst h; rw [b64CharVal_b64Char _ (by omega)]; rfl
    · left; subst h; rw [b64CharVal_b64Char _ (by omega)]; rfl
    · left; subst h; rw [b64CharVal_b64Char _ (by omega)]; rfl
    · exact mem_b64encode rest hrest c h

/-- The pipe separator is never produced by `b64encode` (it is outside the
base64 alphabet), which is what makes `|` safe as a chunk separator. -/
theorem pipe_not_mem_b64encode (l : List Nat) (hv : ValidBytes l) :
    '|' ∉ b64encode l := by
  intro hmem
  rcases mem_b64encode l hv '|' hmem with h | h
  · simp [b64CharVal] at h
  · simp at h

theorem b64encode_filter (l : List Nat) (hv : ValidBytes l) :
    (b64encode l).filter (fun c => (b64CharVal c).isSome || c == '=') =
      b64encode l := by
  apply List.filter_eq_self.mpr
  intro c hc
  rcases mem_b64encode l hv c hc with h | h
  · simp [h]
  · simp [h]

/-- Decoding inverts encoding on well-formed byte strings (group level). -/
theorem b64decodeGroups_b64encode (l : List Nat) (hv : ValidBytes l) :
    b64decodeGroups (b64encode l) = some l := by
  match l with
  | [] => rfl
  | [a] =>
    have ha : a < 256 := hv a (by simp)
    have h1 := b64CharVal_b64Char (a * 16 / 64) (by omega)
    have h2 := b64CharVal_b64Char (a * 16 % 64) (by omega)
    simp only [b64encode, b64decodeGroups, h1, h2, if_pos rfl, and_self]
    have : (a * 16 / 64 * 64 + a * 16 % 64) / 16 = a := by omega
    simp [this]
  | [a, b] =>
    have ha : a < 256 := hv a (by simp)
    have hb : b < 256 := hv b (by simp)
    set t := (a * 256 + b) * 4 with ht
    have h1 := b64CharVal_b64Char (t / 4096) (by omega)
    have h2 := b64CharVal_b64Char (t / 64 % 64) (by omega)
    have h3 := b64CharVal_b64Char (t % 64) (by omega)
    have hne := (b64Char_ne_eq (t % 64) (by omega)).1
    simp only [b64encode, b64decodeGroups, h1, h2, h3, if_neg hne, ← ht,
      if_pos rfl]
    have e1 : (t / 4096 * 4096 + t / 64 % 64 * 64 + t % 64) / 1024 = a := by
      omega
    have e2 : (t / 4096 * 4096 + t / 64 % 64 * 64 + t % 64) / 4 % 256 = b := by
      omega
    simp [e1, e2]
  | a :: b :: d :: rest =>
    have ha : a < 256 := hv a (by simp)
    have hb : b < 256 := hv b (by simp)
    have hd : d < 256 := hv d (by simp)
    have hrest : ValidBytes rest := fun x hx => hv x (by simp [hx])
    set w := a * 65536 + b * 256 + d with hw
    have h1 := b64CharVal_b64Char (w / 262144) (by omega)
    have h2 := b64CharVal_b64Char (w / 4096 % 64) (by omega)
    have h3 := b64CharVal_b64Char (w / 64 % 64) (by omega)
    have h4 := b64CharVal_b64Char (w % 64) (by omega)
    have hne3 := (b64Char_ne_eq (w / 64 % 64) (by omega)).1
    have hne4 := (b64Char_ne_eq (w % 64) (by omega)).1
    have ih := b64decodeGroups_b64encode rest hrest
    simp only [b64encode, b64decodeGroups, h1, h2, h3, h4, if_neg hne3,
      if_neg hne4, ← hw, ih, Option.map_some]
    have e1 : (w / 262144 * 262144 + w / 4096 % 64 * 4096 + w / 64 % 64 * 64 +
        w % 64) / 65536 = a := by omega
    have e2 : (w / 262144 * 262144 + w / 4096 % 64 * 4096 + w / 64 % 64 * 64 +
        w % 64) / 256 % 256 = b := by omega
    have e3 : (w / 262144 * 262144 + w / 4096 % 64 * 4096 + w / 64 % 64 * 64 +
        w % 64) % 256 = d := by omega
    simp [e1, e2, e3]

/-- Round-trip: Python `b64decode(b64encode(bs))` recovers `bs` exactly. -/
theorem b64decode_b64encode (l : List Nat) (hv : ValidBytes l) :
    b64decode (b64encode l) = some l := by
  rw [b64decode, b64encode_filter l hv, b64decodeGroups_b64encode l hv]

/-! ## UTF-8 (Python `str.encode("utf-8")` / `bytes.decode("utf-8")`) -/

/-- UTF-8 encoding of a single Unicode scalar value (1 to 4 bytes). -/
def utf8EncodeChar (c : Char) : List Nat :=
  let v := c.toNat
  if v < 128 then [v]
  else if v < 2048 then [192 + v / 64, 128 + v % 64]
  else if v < 65536 then [224 + v / 4096, 128 + v / 64 % 64, 128 + v % 64]
  else [240 + v / 262144, 128 + v / 4096 % 64, 128 + v / 64 % 64, 128 + v % 64]

/-- Python `message.encode("utf-8")`: the UTF-8 byte string of a text. -/
def utf8Encode (s : String) : List Nat :=
  (s.data.map utf8EncodeChar).flatten

/-- Strict UTF-8 decoding of a byte string to a character list, rejecting
truncated sequences, stray continuation bytes, overlong forms, surrogate
codepoints and values above `0x10FFFF` — exactly the byte sequences Python's
`bytes.decode("utf-8")` rejects with `UnicodeDecodeError` (modelled `none`).
Continuation bytes are read with `List.getD`; a missing byte reads as 0, which
fails the 128–191 continuation-range test, i.e. the truncated-input error. -/
def utf8DecodeAux : List Nat → Option (List Char)
  | [] => some []
  | b0 :: rest =>
    if b0 < 128 then
      (utf8DecodeAux rest).map (fun cs => Char.ofNat b0 :: cs)
    else if b0 < 224 then
      let b1 := rest.getD 0 0
      if 194 ≤ b0 ∧ 128 ≤ b1 ∧ b1 < 192 then
        (utf8DecodeAux (rest.drop 1)).map
          (fun cs => Char.ofNat ((b0 - 192) * 64 + (b1 - 128)) :: cs)
      else none
    else if b0 < 240 then
      let b1 := rest.getD 0 0
      let b2 := rest.getD 1 0
      let v := (b0 - 224) * 4096 + (b1 - 128) * 64 + (b2 - 128)
      if 128 ≤ b1 ∧ b1 < 192 ∧ 128 ≤ b2 ∧ b2 < 192 ∧ 2048 ≤ v ∧
          (v < 55296 ∨ 57343 < v) then
        (utf8DecodeAux (rest.drop 2)).map (fun cs => Char.ofNat v :: cs)
      else none
    else if b0 < 245 then
      let b1 := rest.getD 0 0
      let b2 := rest.getD 1 0
      let b3 := rest.getD 2 0
      let v := (b0 - 240) * 262144 + (b1 - 128) * 4096 + (b2 - 128) * 64 +
        (b3 - 128)
      if 128 ≤ b1 ∧ b1 < 192 ∧ 128 ≤ b2 ∧ b2 < 192 ∧ 128 ≤ b3 ∧ b3 < 192 ∧
          65536 ≤ v ∧ v < 1114112 then
        (utf8DecodeAux (rest.drop 3)).map (fun cs => Char.ofNat v :: cs)
      else none
    else none
termination_by l => l.length
decreasing_by
  all_goals simp only [List.length_drop, List.length_cons]
  all_goals omega

/-- Python `data.decode("utf-8")` back to a text value. -/
def utf8Decode (l : List Nat) : Option String :=
  (utf8DecodeAux l).map (fun cs => String.mk cs)

theorem charOfNat_toNat (c : Char) : Char.ofNat c.toNat = c := by
  have h : c.toNat.isValidChar := c.valid
  apply Char.eq_of_val_eq
  show (Char.ofNat c.toNat).val = c.val
  rw [Char.ofNat, dif_pos h]
  apply UInt32.eq_of_toBitVec_eq
  apply BitVec.eq_of_toNat_eq
  simp [Char.ofNatAux, Char.toNat, UInt32.toNat]

theorem char_toNat_valid (c : Char) :
    c.toNat < 55296 ∨ (57343 < c.toNat ∧ c.toNat < 1114112) := c.valid

/-- The UTF-8 bytes of a character are well-formed bytes. -/
theorem validBytes_utf8EncodeChar (c : Char) : ValidBytes (utf8EncodeChar c) := by
  have hval := char_toNat_valid c
  intro b hb
  rw [utf8EncodeChar] at hb
  split at hb
  · simp at hb; omega
  · split at hb
    · simp at hb; rcases hb with h | h <;> omega
    · split at hb
      · simp at hb; rcases hb with h | h | h <;> omega
      · simp at hb; rcases hb with h | h | h | h <;> omega

/-- The UTF-8 bytes of a text are well-formed bytes. -/
theorem validBytes_utf8Encode (s : String) : ValidBytes (utf8Encode s) := by
  intro b hb
  rw [utf8Encode, List.mem_flatten] at hb
  rcases hb with ⟨l, hl, hb⟩
  rw [List.mem_map] at hl
  rcases hl with ⟨c, _, rfl⟩
  exact validBytes_utf8EncodeChar c b hb

/-- Decoding a stream that starts with the UTF-8 encoding of `c` peels off
exactly `c` and continues with the remainder of the stream. -/
theorem utf8DecodeAux_encodeChar (c : Char) (rest : List Nat) :
    utf8DecodeAux (utf8EncodeChar c ++ rest) =
      (utf8DecodeAux rest).map (fun cs => c :: cs) := by
  have hval := char_toNat_valid c
  rw [utf8EncodeChar]
  by_cases h1 : c.toNat < 128
  · rw [if_pos h1]
    show utf8DecodeAux (c.toNat :: rest) = _
    rw [utf8DecodeAux.eq_def]
    simp only [if_pos h1, charOfNat_toNat]
  · rw [if_neg h1]
    by_cases h2 : c.toNat < 2048
    · rw [if_pos h2]
      show utf8DecodeAux (_ :: _ :: rest) = _
      have e0 : ¬(192 + c.toNat / 64 < 128) := by omega
      have e1 : 192 + c.toNat / 64 < 224 := by omega
      have e2 : 194 ≤ 192 + c.toNat / 64 ∧ 128 ≤ 128 + c.toNat % 64 ∧
          128 + c.toNat % 64 < 192 := by omega
      rw [utf8DecodeAux.eq_def]
      simp only [List.getD_cons_zero, List.getD_cons_succ, List.drop_succ_cons,
        List.drop_zero, if_neg e0, if_pos e1, if_pos e2]
      have ev : (192 + c.toNat / 64 - 192) * 64 + (128 + c.toNat % 64 - 128) =
          c.toNat := by omega
      rw [ev, charOfNat_toNat]
    · rw [if_neg h2]
      by_cases h3 : c.toNat < 65536
      · rw [if_pos h3]
        show utf8DecodeAux (_ :: _ :: _ :: rest) = _
        have e0 : ¬(224 + c.toNat / 4096 < 128) := by omega
        have e1 : ¬(224 + c.toNat / 4096 < 224) := by omega
        have e2 : 224 + c.toNat / 4096 < 240 := by omega
        have ev : (224 + c.toNat / 4096 - 224) * 4096 +
            (128 + c.toNat / 64 % 64 - 128) * 64 + (128 + c.toNat % 64 - 128) =
            c.toNat := by omega
        rw [utf8DecodeAux.eq_def]
        simp only [List.getD_cons_zero, List.getD_cons_succ, List.drop_succ_cons,
          List.drop_zero, if_neg e0, if_neg e1, if_pos e2]
        rw [ev]
        have e3 : 128 ≤ 128 + c.toNat / 64 % 64 ∧ 128 + c.toNat / 64 % 64 < 192 ∧
            128 ≤ 128 + c.toNat % 64 ∧ 128 + c.toNat % 64 < 192 ∧
            2048 ≤ c.toNat ∧ (c.toNat < 55296 ∨ 57343 < c.toNat) := by
          refine ⟨by omega, by omega, by omega, by omega, by omega, ?_⟩
          omega
        rw [if_pos e3, charOfNat_toNat]
      · rw [if_neg h3]
        show utf8DecodeAux (_ :: _ :: _ :: _ :: rest) = _
        have e0 : ¬(240 + c.toNat / 262144 < 128) := by omega
        have e1 : ¬(240 + c.toNat / 262144 < 224) := by omega
        have e2 : ¬(240 + c.toNat / 262144 < 240) := by omega
        have e2b : 240 + c.toNat / 262144 < 245 := by omega
        have ev : (240 + c.toNat / 262144 - 240) * 262144 +
            (128 + c.toNat / 4096 % 64 - 128) * 4096 +
            (128 + c.toNat / 64 % 64 - 128) * 64 + (128 + c.toNat % 64 - 128) =
            c.toNat := by omega
        rw [utf8DecodeAux.eq_def]
        simp only [List.getD_cons_zero, List.getD_cons_succ, List.drop_succ_cons,
          List.drop_zero, if_neg e0, if_neg e1, if_neg e2, if_pos e2b]
        rw [ev]
        have e3 : 128 ≤ 128 + c.toNat / 4096 % 64 ∧
            128 + c.toNat / 4096 % 64 < 192 ∧
            128 ≤ 128 + c.toNat / 64 % 64 ∧ 128 + c.toNat / 64 % 64 < 192 ∧
            128 ≤ 128 + c.toNat % 64 ∧ 128 + c.toNat % 64 < 192 ∧
            65536 ≤ c.toNat ∧ c.toNat < 1114112 := by omega
        rw [if_pos e3, charOfNat_toNat]

/-- Decoding inverts encoding at the character-list level. -/
theorem utf8DecodeAux_encode (cs : List Char) :
    utf8DecodeAux ((cs.map utf8EncodeChar).flatten) = some cs := by
  induction cs with
  | nil => simp only [List.map_nil, List.flatten_nil]; rw [utf8DecodeAux]
  | cons c cs ih =>
    rw [List.map_cons, List.flatten_cons, utf8DecodeAux_encodeChar, ih]
    rfl

/-- Round-trip: Python `s.encode("utf-8").decode("utf-8")` is `s` itself. -/
theorem utf8Decode_utf8Encode (s : String) : utf8Decode (utf8Encode s) = some s := by
  rw [utf8Decode, utf8Encode, utf8DecodeAux_encode]
  rfl

/-- UTF-8 encoding is injective (distinct texts have distinct byte strings). -/
theorem utf8Encode_injective (s t : String)
    (h : utf8Encode s = utf8Encode t) : s = t := by
  have hs := utf8Decode_utf8Encode s
  have ht := utf8Decode_utf8Encode t
  rw [h, ht] at hs
  exact (Option.some_injective _ hs).symm

/-! ## Splitting and joining on the `|` separator
(Python `'|'.join(chunks)` and `encrypted_message.split('|')`) -/

/-- Python `str.split(sep)` for a one-character separator: `""` splits to
`[""]`, and every occurrence of the separator opens a new field. -/
def splitOnChar (sep : Char) : List Char → List (List Char)
  | [] => [[]]
  | c :: cs =>
    let r := splitOnChar sep cs
    if c = sep then [] :: r else (c :: r.headD []) :: r.tail

theorem splitOnChar_ne_nil (sep : Char) (l : List Char) :
    splitOnChar sep l ≠ [] := by
  match l with
  | [] => simp [splitOnChar]
  | c :: cs =>
    rw [splitOnChar]
    split <;> simp

/-- A string without the separator splits to the single field it is. -/
theorem splitOnChar_not_mem (sep : Char) (l : List Char) (h : sep ∉ l) :
    splitOnChar sep l = [l] := by
  induction l with
  | nil => rfl
  | cons c cs ih =>
    have hc : c ≠ sep := fun he => h (by simp [he])
    have hcs : sep ∉ cs := fun hm => h (by simp [hm])
    rw [splitOnChar]
    simp only [if_neg hc, ih hcs]
    rfl

theorem splitOnChar_append (sep : Char) (p rest : List Char) (hp : sep ∉ p) :
    splitOnChar sep (p ++ sep :: rest) = p :: splitOnChar sep rest := by
  induction p with
  | nil => rw [List.nil_append, splitOnChar, if_pos rfl]
  | cons c p ih =>
    have hc : c ≠ sep := fun he => hp (by simp [he])
    have hp2 : sep ∉ p := fun hm => hp (by simp [hm])
    rw [List.cons_append, splitOnChar]
    simp only [if_neg hc, ih hp2]
    rfl

theorem intercalate_cons₂ (sep : Char) (p q : List Char)
    (rs : List (List Char)) :
    List.intercalate [sep] (p :: q :: rs) =
      p ++ sep :: List.intercalate [sep] (q :: rs) := by
  simp [List.intercalate, List.intersperse]

/-- Splitting inverts joining when no field contains the separator —
the reason the `|`-separated wire format is unambiguous. -/
theorem splitOnChar_intercalate (sep : Char) (parts : List (List Char))
    (hne : parts ≠ []) (h : ∀ p ∈ parts, sep ∉ p) :
    splitOnChar sep (List.intercalate [sep] parts) = parts := by
  match parts with
  | [p] =>
    have e : List.intercalate [sep] [p] = p := by
      simp [List.intercalate, List.intersperse]
    rw [e]
    exact splitOnChar_not_mem sep p (h p (by simp))
  | p :: q :: rs =>
    rw [intercalate_cons₂, splitOnChar_append sep p _ (h p (by simp)),
      splitOnChar_intercalate sep (q :: rs) (by simp)
        (fun x hx => h x (by simp [hx]))]

theorem pipe_mem_intercalate (sep : Char) (p q : List Char)
    (rs : List (List Char)) :
    sep ∈ List.intercalate [sep] (p :: q :: rs) := by
  rw [intercalate_cons₂]
  simp

/-! ## Chunking (`for i in range(0, len(message_bytes), max_chunk_size)`) -/

/-- `self.key_size = 2048` from `CryptoUtils.__init__`. -/
def key_size : Nat := 2048

/-- `max_chunk_size = (self.key_size // 8) - 42  # PKCS1_OAEP overhead`. -/
def max_chunk_size : Nat := key_size / 8 - 42

theorem max_chunk_size_eq : max_chunk_size = 214 := rfl

/-- The chunk sequence `message_bytes[i:i+max_chunk_size]` for
`i in range(0, len(message_bytes), max_chunk_size)`. -/
def chunkList : List Nat → List (List Nat)
  | [] => []
  | a :: rest =>
    (a :: rest).take max_chunk_size :: chunkList ((a :: rest).drop max_chunk_size)
termination_by l => l.length
decreasing_by
  simp only [List.length_drop, List.length_cons]
  have h2 : max_chunk_size = 214 := rfl
  omega

/-- Concatenating the chunks in order restores the original byte string. -/
theorem chunkList_flatten (l : List Nat) : (chunkList l).flatten = l := by
  match l with
  | [] => rw [chunkList]; rfl
  | a :: rest =>
    rw [chunkList, List.flatten_cons,
      chunkList_flatten ((a :: rest).drop max_chunk_size)]
    exact List.take_append_drop _ _
termination_by l.length
decreasing_by
  simp only [List.length_drop, List.length_cons]
  have h2 : max_chunk_size = 214 := rfl
  omega

/-- Every chunk is nonempty and at most `max_chunk_size` bytes long. -/
theorem chunkList_mem_length (l : List Nat) :
    ∀ ch ∈ chunkList l, ch ≠ [] ∧ ch.length ≤ max_chunk_size := by
  match l with
  | [] => rw [chunkList]; simp
  | a :: rest =>
    intro ch hch
    rw [chunkList] at hch
    rcases List.mem_cons.mp hch with rfl | hmem
    · constructor
      · have h2 : max_chunk_size = 214 := rfl
        intro he
        have hl := congrArg List.length he
        simp only [List.length_take, List.length_cons, List.length_nil, h2] at hl
        omega
      · simp [List.length_take]
    · exact chunkList_mem_length _ ch hmem
termination_by l.length
decreasing_by
  simp only [List.length_drop, List.length_cons]
  have h2 : max_chunk_size = 214 := rfl
  omega

/-- Chunk bytes come from the original byte string. -/
theorem chunkList_mem_valid (l : List Nat) (hv : ValidBytes l) :
    ∀ ch ∈ chunkList l, ValidBytes ch := by
  match l with
  | [] => rw [chunkList]; simp
  | a :: rest =>
    intro ch hch
    rw [chunkList] at hch
    rcases List.mem_cons.mp hch with rfl | hmem
    · exact fun b hb => hv b (List.take_subset _ _ hb)
    · exact chunkList_mem_valid ((a :: rest).drop max_chunk_size)
        (fun b hb => hv b (List.drop_subset _ _ hb)) ch hmem
termination_by l.length
decreasing_by
  simp only [List.length_drop, List.length_cons]
  have h2 : max_chunk_size = 214 := rfl
  omega

/-- The number of chunks of a nonempty byte string is
`ceil(len / max_chunk_size)`. -/
theorem chunkList_length (l : List Nat) (h : l ≠ []) :
    (chunkList l).length =
      (l.length + (max_chunk_size - 1)) / max_chunk_size := by
  match l with
  | [] => exact absurd rfl h
  | a :: rest =>
    have h2 : max_chunk_size = 214 := rfl
    rw [chunkList, List.length_cons]
    by_cases hle : (a :: rest).length ≤ max_chunk_size
    · rw [List.drop_eq_nil_of_le hle, chunkList]
      rw [max_chunk_size_eq] at hle ⊢
      simp only [List.length_nil, List.length_cons] at hle ⊢
      omega
    · have hd : (a :: rest).drop max_chunk_size ≠ [] := by
        intro he
        have hl := congrArg List.length he
        rw [List.length_drop, h2] at hl
        simp only [List.length_cons, List.length_nil] at hl
        rw [h2] at hle
        simp only [List.length_cons] at hle
        omega
      rw [chunkList_length _ hd]
      rw [max_chunk_size_eq] at hle ⊢
      simp only [List.length_drop, List.length_cons] at hle ⊢
      omega
termination_by l.length
decreasing_by
  simp only [List.length_drop, List.length_cons]
  have h2 : max_chunk_size = 214 := rfl
  omega

/-- A byte string longer than `max_chunk_size` gives at least two chunks. -/
theorem chunkList_two_le (l : List Nat) (h : max_chunk_size < l.length) :
    2 ≤ (chunkList l).length := by
  have h2 : max_chunk_size = 214 := rfl
  have hne : l ≠ [] := by
    intro he
    subst he
    rw [h2] at h
    simp at h
  rw [chunkList_length l hne, h2]
  rw [h2] at h
  omega

/-! ## The fallible chunk loop -/

/-- The accumulation loop of `encrypt_message`/`decrypt_message`: apply a
fallible step to every element in order, collecting the results; the first
failure aborts the whole loop (the Python exception propagates out, so the
caller never sees a partial result list). -/
def mapOption {α β : Type} (f : α → Option β) : List α → Option (List β)
  | [] => some []
  | a :: l =>
    match f a with
    | none => none
    | some b => (mapOption f l).map (fun bs => b :: bs)

theorem mapOption_none {α β : Type} (f : α → Option β) (l : List α) (a : α)
    (ha : a ∈ l) (hf : f a = none) : mapOption f l = none := by
  induction l with
  | nil => simp at ha
  | cons x xs ih =>
    rcases List.mem_cons.mp ha with rfl | hmem
    · rw [mapOption, hf]
    · rw [mapOption]
      match hx : f x with
      | none => rfl
      | some b => rw [ih hmem]; rfl

theorem forall₂_mapOption {α β : Type} (f : α → Option β) {l : List α}
    {r : List β} (h : List.Forall₂ (fun a b => f a = some b) l r) :
    mapOption f l = some r := by
  induction h with
  | nil => rfl
  | cons hab _ ih =>
    rw [mapOption, hab, ih]
    rfl

theorem mapOption_forall₂ {α β : Type} (f : α → Option β) {l : List α}
    {r : List β} (h : mapOption f l = some r) :
    List.Forall₂ (fun a b => f a = some b) l r := by
  induction l generalizing r with
  | nil =>
    rw [mapOption] at h
    cases h
    exact List.Forall₂.nil
  | cons x xs ih =>
    rw [mapOption] at h
    match hx : f x with
    | none => rw [hx] at h; cases h
    | some b =>
      rw [hx] at h
      match hrec : mapOption f xs with
      | none => rw [hrec] at h; cases h
      | some bs =>
        rw [hrec] at h
        simp at h
        subst h
        exact List.Forall₂.cons hx (ih hrec)

theorem mapOption_exists_of_isSome {α β : Type} (f : α → Option β) (l : List α)
    (h : ∀ a ∈ l, (f a).isSome) :
    ∃ r, mapOption f l = some r ∧ List.Forall₂ (fun a b => f a = some b) l r := by
  induction l with
  | nil => exact ⟨[], rfl, List.Forall₂.nil⟩
  | cons x xs ih =>
    rcases Option.isSome_iff_exists.mp (h x (by simp)) with ⟨b, hb⟩
    rcases ih (fun a ha => h a (by simp [ha])) with ⟨bs, hbs, hfa⟩
    exact ⟨b :: bs, by rw [mapOption, hb, hbs]; rfl, List.Forall₂.cons hb hfa⟩

theorem forall₂_imp_of_mem {α β : Type} {R S : α → β → Prop} {l : List α}
    {r : List β} (h : List.Forall₂ R l r)
    (himp : ∀ a ∈ l, ∀ b, R a b → S a b) : List.Forall₂ S l r := by
  induction h with
  | nil => exact List.Forall₂.nil
  | cons hab _ ih =>
    exact List.Forall₂.cons (himp _ (by simp) _ hab)
      (ih (fun a ha b hb => himp a (by simp [ha]) b hb))

theorem forall₂_mem_right {α β : Type} {R : α → β → Prop} {l : List α}
    {r : List β} (h : List.Forall₂ R l r) :
    ∀ b ∈ r, ∃ a ∈ l, R a b := by
  induction h with
  | nil => simp
  | cons hab _ ih =>
    intro b hb
    rcases List.mem_cons.mp hb with rfl | hmem
    · exact ⟨_, by simp, hab⟩
    · rcases ih b hmem with ⟨a, ha, hr⟩
      exact ⟨a, by simp [ha], hr⟩

/-- `b64Char` never returns the separator, whatever its argument. -/
theorem b64Char_ne_pipe (n : Nat) : b64Char n ≠ '|' := by
  have hval : ∀ m : Nat, m < 55296 → (Char.ofNat m).toNat = m := by
    intro m hm
    rw [Char.ofNat, dif_pos (Or.inl hm)]
    simp [Char.ofNatAux, Char.toNat, UInt32.toNat]
  intro he
  have hp : ('|' : Char).toNat = 124 := by decide
  rw [b64Char] at he
  split at he
  · rename_i h
    have := congrArg Char.toNat he
    rw [hval (65 + n) (by omega), hp] at this
    omega
  · split at he
    · rename_i h1 h2
      have := congrArg Char.toNat he
      rw [hval (97 + (n - 26)) (by omega), hp] at this
      omega
    · split at he
      · rename_i h1 h2 h3
        have := congrArg Char.toNat he
        rw [hval (48 + (n - 52)) (by omega), hp] at this
        omega
      · split at he
        · exact absurd (congrArg Char.toNat he) (by decide)
        · exact absurd (congrArg Char.toNat he) (by decide)

/-- No `b64encode` output ever contains `|`, for arbitrary input bytes. -/
theorem pipe_not_mem_b64encode_any (l : List Nat) : '|' ∉ b64encode l := by
  intro hmem
  match l with
  | [] => simp [b64encode] at hmem
  | [a] =>
    simp only [b64encode, List.mem_cons, List.not_mem_nil, or_false] at hmem
    rcases hmem with h | h | h | h
    · exact b64Char_ne_pipe _ h.symm
    · exact b64Char_ne_pipe _ h.symm
    · cases h
    · cases h
  | [a, b] =>
    simp only [b64encode, List.mem_cons, List.not_mem_nil, or_false] at hmem
    rcases hmem with h | h | h | h
    · exact b64Char_ne_pipe _ h.symm
    · exact b64Char_ne_pipe _ h.symm
    · exact b64Char_ne_pipe _ h.symm
    · cases h
  | a :: b :: d :: rest =>
    simp only [b64encode, List.mem_cons] at hmem
    rcases hmem with h | h | h | h | h
    · exact b64Char_ne_pipe _ h.symm
    · exact b64Char_ne_pipe _ h.symm
    · exact b64Char_ne_pipe _ h.symm
    · exact b64Char_ne_pipe _ h.symm
    · exact pipe_not_mem_b64encode_any rest h

theorem mem_intercalate_of_two_le (sep : Char) (parts : List (List Char))
    (h : 2 ≤ parts.length) : sep ∈ List.intercalate [sep] parts := by
  match parts with
  | [] => simp at h
  | [p] => simp at h
  | p :: q :: rs => exact pipe_mem_intercalate sep p q rs

/-! ## The `CryptoUtils` operations -/

namespace CryptoUtils

/-- `CryptoUtils.encrypt_message(message, public_key_pem)`.  The per-block
primitive `cipher.encrypt` of the `PKCS1_OAEP.new(public_key)` object is the
parameter `enc` (`none` = the primitive raising).  The method UTF-8-encodes
the message; when it fits in `max_chunk_size` bytes it returns the base64 of
the single encrypted block, otherwise it encrypts the chunks in order,
collects them in the `chunks` list and joins their base64 encodings with `|`.
`none` models the method's `raise Exception("Failed to encrypt message")`
(the spec's `EncryptionError`). -/
def encrypt_message (enc : List Nat → Option (List Nat)) (message : String) :
    Option (List Char) :=
  let message_bytes := utf8Encode message
  if message_bytes.length ≤ max_chunk_size then
    (enc message_bytes).map b64encode
  else
    (mapOption (fun chunk => (enc chunk).map b64encode)
        (chunkList message_bytes)).map
      (fun chunks => List.intercalate ['|'] chunks)

/-- `CryptoUtils.decrypt_message(encrypted_message, private_key_pem)`.  The
per-block primitive `cipher.decrypt` of the `PKCS1_OAEP.new(private_key)`
object is the parameter `dec`.  When the input contains `|`, each segment is
base64-decoded and decrypted in order and the plaintext byte strings are
concatenated; otherwise the whole input is a single block.  The resulting
bytes are decoded as UTF-8.  `none` models the method's
`raise Exception("Failed to decrypt message")` (the spec's
`DecryptionError`). -/
def decrypt_message (dec : List Nat → Option (List Nat))
    (encrypted_message : List Char) : Option String :=
  if '|' ∈ encrypted_message then
    (mapOption (fun chunk => (b64decode chunk).bind dec)
        (splitOnChar '|' encrypted_message)).bind
      (fun decrypted_chunks => utf8Decode decrypted_chunks.flatten)
  else
    ((b64decode encrypted_message).bind dec).bind
      (fun decrypted_data => utf8Decode decrypted_data)

/-- `CryptoUtils.hash_password(password)`.  `salt` is the value drawn by
`get_random_bytes(32)` during the call, and `kdf` models
`hashlib.pbkdf2_hmac('sha256', password_bytes, salt, 100000)` (from password
bytes and salt to the derived hash).  The record is the base64 encoding of
`salt + password_hash`. -/
def hash_password (kdf : List Nat → List Nat → List Nat) (salt : List Nat)
    (password : String) : List Char :=
  b64encode (salt ++ kdf (utf8Encode password) salt)

/-- `CryptoUtils.verify_password(password, hashed_password)`: base64-decode
the record, split it as `decoded_hash[:32]` (salt) and `decoded_hash[32:]`
(stored hash), recompute the KDF and compare for equality; any exception on
the way (only the base64 decode can raise) is caught and yields `False`. -/
def verify_password (kdf : List Nat → List Nat → List Nat) (password : String)
    (hashed_password : List Char) : Bool :=
  match b64decode hashed_password with
  | none => false
  | some decoded_hash =>
    decide (kdf (utf8Encode password) (decoded_hash.take 32) =
      decoded_hash.drop 32)

end CryptoUtils

/-- The number of `|`-separated blocks of a wire string,
`len(encrypted_message.split('|'))`. -/
def numBlocks (em : List Char) : Nat := (splitOnChar '|' em).length

/-! ## Contracts of the external primitives, and concrete instances -/

/-- Contract of a matching `PKCS1_OAEP` encrypt/decrypt pair built from the
two halves of one 2048-bit RSA key pair (PyCryptodome): every plaintext block
of at most `max_chunk_size` = 256 − 42 bytes encrypts to some 256-byte
ciphertext block, and the matching private key decrypts that block back to
the plaintext. -/
def OAEPPair (enc dec : List Nat → Option (List Nat)) : Prop :=
  ∀ m, ValidBytes m → m.length ≤ max_chunk_size →
    ∃ c, enc m = some c ∧ ValidBytes c ∧ c.length = 256 ∧ dec c = some m

/-- Contract of `PKCS1_OAEP.decrypt` alone: a ciphertext whose length is not
the modulus size (256 bytes for a 2048-bit key) is rejected with
`ValueError: Ciphertext with incorrect length`. -/
def OAEPDecMod (dec : List Nat → Option (List Nat)) : Prop :=
  ∀ c, c.length ≠ 256 → dec c = none

/-- A concrete cipher pair realising `OAEPPair` (stands in for one generated
key pair in the closed witnesses): the block is stored after a length byte,
padded to 256 bytes. -/
def mockEnc (m : List Nat) : Option (List Nat) :=
  if ValidBytes m ∧ m.length ≤ max_chunk_size then
    some (m.length :: (m ++ List.replicate (255 - m.length) 0))
  else none

/-- The decryption half of the concrete cipher pair. -/
def mockDec (c : List Nat) : Option (List Nat) :=
  if c.length = 256 then
    match c with
    | n :: rest => if n ≤ max_chunk_size then some (rest.take n) else none
    | [] => none
  else none

/-- A private key matching no ciphertext at all (stands in for the private
half of an unrelated key pair in the closed witnesses). -/
def mockDecOther : List Nat → Option (List Nat) := fun _ => none

theorem mockDec_mod : OAEPDecMod mockDec := by
  intro c hc
  rw [mockDec.eq_def, if_neg hc]

theorem mockOAEP : OAEPPair mockEnc mockDec := by
  intro m hv hlen
  have h214 : max_chunk_size = 214 := rfl
  refine ⟨m.length :: (m ++ List.replicate (255 - m.length) 0), ?_, ?_, ?_, ?_⟩
  · rw [mockEnc, if_pos ⟨hv, hlen⟩]
  · intro b hb
    rcases List.mem_cons.mp hb with rfl | hmem
    · omega
    · rcases List.mem_append.mp hmem with h | h
      · exact hv b h
      · rw [List.eq_of_mem_replicate h]
        omega
  · simp only [List.length_cons, List.length_append, List.length_replicate]
    omega
  · have hlc : (m.length :: (m ++ List.replicate (255 - m.length) 0)).length =
        256 := by
      simp only [List.length_cons, List.length_append, List.length_replicate]
      omega
    rw [mockDec.eq_def, if_pos hlc]
    simp only [if_pos hlen]
    rw [List.take_left' rfl]

theorem mockEnc_some (m : List Nat) (hv : ValidBytes m)
    (hlen : m.length ≤ max_chunk_size) :
    ∃ c, mockEnc m = some c ∧ ValidBytes c := by
  rcases mockOAEP m hv hlen with ⟨c, hc, hcv, _, _⟩
  exact ⟨c, hc, hcv⟩

/-- A concrete KDF (stands in for `hashlib.pbkdf2_hmac('sha256', ·, ·,
100000)` in the closed witnesses): 32 bytes, the last reflecting the
password length. -/
def mockKdf (pw _salt : List Nat) : List Nat :=
  List.replicate 31 0 ++ [pw.length % 256]

theorem mockKdf_length : ∀ pw s, (mockKdf pw s).length = 32 := by
  intro pw s
  simp [mockKdf]

theorem mockKdf_valid : ∀ pw s, ValidBytes (mockKdf pw s) := by
  intro pw s b hb
  rcases List.mem_append.mp hb with h | h
  · rw [List.eq_of_mem_replicate h]
    omega
  · simp only [List.mem_singleton] at h
    subst h
    omega

/-! ## Shared facts about the two decryption branches -/

theorem forall₂_swap {α β : Type} {R : α → β → Prop} {l : List α}
    {r : List β} (h : List.Forall₂ R l r) :
    List.Forall₂ (fun b a => R a b) r l := by
  induction h with
  | nil => exact List.Forall₂.nil
  | cons hab _ ih => exact List.Forall₂.cons hab ih

/-- Single-block branch of `decrypt_message` on a base64-encoded block. -/
theorem decrypt_message_b64encode (dec : List Nat → Option (List Nat))
    (c : List Nat) (hcv : ValidBytes c) :
    CryptoUtils.decrypt_message dec (b64encode c) =
      (dec c).bind (fun d => utf8Decode d) := by
  rw [CryptoUtils.decrypt_message, if_neg (pipe_not_mem_b64encode_any c),
    b64decode_b64encode c hcv]
  rfl

/-- Chunked branch of `decrypt_message` on a `|`-joined list of segments that
decode-and-decrypt to `chunks` in order. -/
theorem decrypt_message_intercalate (dec : List Nat → Option (List Nat))
    (parts : List (List Char)) (chunks : List (List Nat))
    (h2 : 2 ≤ parts.length) (hnp : ∀ p ∈ parts, '|' ∉ p)
    (hfa : List.Forall₂ (fun p ch => (b64decode p).bind dec = some ch)
      parts chunks) :
    CryptoUtils.decrypt_message dec (List.intercalate ['|'] parts) =
      utf8Decode chunks.flatten := by
  rw [CryptoUtils.decrypt_message,
    if_pos (mem_intercalate_of_two_le '|' parts h2),
    splitOnChar_intercalate '|' parts
      (by intro he; rw [he] at h2; simp at h2) hnp,
    forall₂_mapOption _ hfa]
  rfl

/-! ## The claims -/

/-- C1: for every UTF-8 string `s` and every key pair generated together —
modelled as any cipher pair satisfying the `PKCS1_OAEP` matching-keys
contract — `decrypt_message (encrypt_message s pub) priv = s`, for all byte
lengths of `s` including 0, 1, the chunk boundaries around
`max_chunk_size` = 214, and all multiples thereof. -/
theorem C1_encrypt_decrypt_roundtrip (enc dec : List Nat → Option (List Nat))
    (h : OAEPPair enc dec) (s : String) :
    (CryptoUtils.encrypt_message enc s).bind (CryptoUtils.decrypt_message dec)
      = some s := by
  have hv : ValidBytes (utf8Encode s) := validBytes_utf8Encode s
  simp only [CryptoUtils.encrypt_message]
  by_cases hlen : (utf8Encode s).length ≤ max_chunk_size
  · rw [if_pos hlen]
    obtain ⟨c, hc, hcv, _, hdec⟩ := h (utf8Encode s) hv hlen
    rw [hc]
    show CryptoUtils.decrypt_message dec (b64encode c) = some s
    rw [decrypt_message_b64encode dec c hcv, hdec]
    show utf8Decode (utf8Encode s) = some s
    exact utf8Decode_utf8Encode s
  · rw [if_neg hlen]
    have hch_prop := chunkList_mem_length (utf8Encode s)
    have hch_val := chunkList_mem_valid (utf8Encode s) hv
    have hsome : ∀ ch ∈ chunkList (utf8Encode s),
        ((enc ch).map b64encode).isSome := by
      intro ch hch
      obtain ⟨c, hc, _, _, _⟩ := h ch (hch_val ch hch) (hch_prop ch hch).2
      rw [hc]
      rfl
    obtain ⟨parts, hparts, hfa⟩ := mapOption_exists_of_isSome _ _ hsome
    rw [hparts]
    show CryptoUtils.decrypt_message dec (List.intercalate ['|'] parts) = some s
    have hfa2 : List.Forall₂ (fun ch p => (b64decode p).bind dec = some ch)
        (chunkList (utf8Encode s)) parts := by
      apply forall₂_imp_of_mem hfa
      intro ch hch p hrel
      obtain ⟨c, hc, hcv, _, hdec⟩ := h ch (hch_val ch hch) (hch_prop ch hch).2
      rw [hc] at hrel
      have hp : b64encode c = p := by
        simpa using hrel
      rw [← hp, b64decode_b64encode c hcv]
      show dec c = some ch
      exact hdec
    have hnp : ∀ p ∈ parts, '|' ∉ p := by
      intro p hp
      obtain ⟨ch, _, hrel⟩ := forall₂_mem_right hfa p hp
      match he : enc ch with
      | none => rw [he] at hrel; cases hrel
      | some c =>
        rw [he] at hrel
        have hp2 : b64encode c = p := by simpa using hrel
        rw [← hp2]
        exact pipe_not_mem_b64encode_any c
    have hlen2 : 2 ≤ parts.length := by
      rw [← hfa.length_eq]
      exact chunkList_two_le _ (not_le.mp hlen)
    rw [decrypt_message_intercalate dec parts (chunkList (utf8Encode s)) hlen2
      hnp (forall₂_swap hfa2), chunkList_flatten]
    exact utf8Decode_utf8Encode s

/-- C1 witness: the round trip at the concrete message `"hello"` under the
concrete cipher pair. -/
theorem C1_witness :
    (CryptoUtils.encrypt_message mockEnc "hello").bind
      (CryptoUtils.decrypt_message mockDec) = some "hello" :=
  C1_encrypt_decrypt_roundtrip mockEnc mockDec mockOAEP "hello"

theorem forall₂_enc_no_pipe {enc : List Nat → Option (List Nat)}
    {chunks : List (List Nat)} {parts : List (List Char)}
    (hfa : List.Forall₂ (fun ch p => (enc ch).map b64encode = some p)
      chunks parts) :
    ∀ p ∈ parts, '|' ∉ p := by
  intro p hp
  obtain ⟨ch, _, hrel⟩ := forall₂_mem_right hfa p hp
  match he : enc ch with
  | none => rw [he] at hrel; cases hrel
  | some c =>
    rw [he] at hrel
    have hp2 : b64encode c = p := by simpa using hrel
    rw [← hp2]
    exact pipe_not_mem_b64encode_any c

/-- C2 counterexample: for the empty plaintext the claimed block count
`ceil(0 / max_chunk_size) = 0` does not hold — the single-chunk branch still
emits one base64 block, so the wire string has one `|`-separated block. -/
theorem C2_counterexample :
    (CryptoUtils.encrypt_message mockEnc "").map numBlocks = some 1 ∧
    ((utf8Encode "").length + (max_chunk_size - 1)) / max_chunk_size = 0 := by
  constructor
  · decide
  · decide

/-- C2 (amended): the `EncryptedMessage` produced by `encrypt_message`
consists of exactly `ceil(len(plaintextBytes) / max_chunk_size)`
`|`-separated base64 blocks whenever `len(plaintextBytes) ≥ 1`; for
`len(plaintextBytes) == 0` it is a single block (the encryption of the empty
byte string), not zero blocks. -/
theorem C2_chunk_count (enc : List Nat → Option (List Nat)) (s : String)
    (em : List Char) (h : CryptoUtils.encrypt_message enc s = some em) :
    numBlocks em = if (utf8Encode s).length = 0 then 1
      else ((utf8Encode s).length + (max_chunk_size - 1)) / max_chunk_size := by
  simp only [CryptoUtils.encrypt_message] at h
  by_cases hlen : (utf8Encode s).length ≤ max_chunk_size
  · rw [if_pos hlen] at h
    match he : enc (utf8Encode s) with
    | none => rw [he] at h; cases h
    | some c =>
      rw [he] at h
      have hem : b64encode c = em := by simpa using h
      rw [numBlocks, ← hem,
        splitOnChar_not_mem '|' _ (pipe_not_mem_b64encode_any c)]
      rw [max_chunk_size_eq] at hlen ⊢
      split
      · rfl
      · rename_i h0
        simp only [List.length_singleton]
        omega
  · rw [if_neg hlen] at h
    match hm : mapOption (fun chunk => (enc chunk).map b64encode)
        (chunkList (utf8Encode s)) with
    | none => rw [hm] at h; cases h
    | some parts =>
      rw [hm] at h
      have hem : List.intercalate ['|'] parts = em := by simpa using h
      have hfa := mapOption_forall₂ _ hm
      have hnp := forall₂_enc_no_pipe hfa
      have hplen : parts.length = (chunkList (utf8Encode s)).length :=
        hfa.length_eq.symm
      have h2 : 2 ≤ parts.length := by
        rw [hplen]
        exact chunkList_two_le _ (not_le.mp hlen)
      rw [numBlocks, ← hem, splitOnChar_intercalate '|' parts
        (by intro he; rw [he] at h2; simp at h2) hnp, hplen]
      have hne : utf8Encode s ≠ [] := by
        intro he
        rw [he] at hlen
        simp at hlen
      rw [chunkList_length _ hne]
      rw [max_chunk_size_eq] at hlen ⊢
      rw [if_neg (by omega)]

set_option maxRecDepth 4096 in
/-- C2 witness: rule applied to the two-byte message `"hi"` under the
concrete cipher: one block, matching `ceil(2/214) = 1`. -/
theorem C2_chunk_count_witness :
    numBlocks (b64encode (2 :: (utf8Encode "hi" ++ List.replicate 253 0))) =
      if (utf8Encode "hi").length = 0 then 1
      else ((utf8Encode "hi").length + (max_chunk_size - 1)) / max_chunk_size :=
  C2_chunk_count mockEnc "hi"
    (b64encode (2 :: (utf8Encode "hi" ++ List.replicate 253 0))) (by decide)

/-- C3: `max_chunk_size` is modulus bytes minus the OAEP overhead,
`2048/8 − 42 = 214`; a plaintext of at most 214 bytes is encrypted as a
single chunk whose output is the base64 of the one ciphertext block and
contains no `|`; a longer plaintext is split into contiguous nonempty chunks
of at most 214 bytes whose concatenation is the plaintext, each encrypted
independently with the same `enc`, base64-encoded, and joined with `|`. -/
theorem C3_chunking_contract (enc : List Nat → Option (List Nat)) (s : String) :
    max_chunk_size = 2048 / 8 - 42 ∧ max_chunk_size = 214 ∧
    ((utf8Encode s).length ≤ max_chunk_size →
      CryptoUtils.encrypt_message enc s = (enc (utf8Encode s)).map b64encode ∧
      ∀ em, CryptoUtils.encrypt_message enc s = some em → '|' ∉ em) ∧
    (max_chunk_size < (utf8Encode s).length →
      CryptoUtils.encrypt_message enc s =
        (mapOption (fun chunk => (enc chunk).map b64encode)
          (chunkList (utf8Encode s))).map
          (fun chunks => List.intercalate ['|'] chunks) ∧
      (∀ ch ∈ chunkList (utf8Encode s), ch ≠ [] ∧ ch.length ≤ max_chunk_size) ∧
      (chunkList (utf8Encode s)).flatten = utf8Encode s) := by
  refine ⟨rfl, rfl, fun hlen => ⟨?_, ?_⟩,
    fun hlong => ⟨?_, chunkList_mem_length _, chunkList_flatten _⟩⟩
  · simp only [CryptoUtils.encrypt_message]
    rw [if_pos hlen]
  · intro em hem
    simp only [CryptoUtils.encrypt_message] at hem
    rw [if_pos hlen] at hem
    match he : enc (utf8Encode s) with
    | none => rw [he] at hem; cases hem
    | some c =>
      rw [he] at hem
      have hp : b64encode c = em := by simpa using hem
      rw [← hp]
      exact pipe_not_mem_b64encode_any c
  · simp only [CryptoUtils.encrypt_message]
    rw [if_neg (not_le.mpr hlong)]

/-- C3 witness: the single-chunk branch at `"hello world"` (11 bytes, well
under 214): the output is the base64 of one block and has no `|`. -/
theorem C3_witness :
    CryptoUtils.encrypt_message mockEnc "hello world" =
      (mockEnc (utf8Encode "hello world")).map b64encode ∧
    ∀ em, CryptoUtils.encrypt_message mockEnc "hello world" = some em →
      '|' ∉ em :=
  (C3_chunking_contract mockEnc "hello world").2.2.1 (by decide)

/-- C4: with the salt drawn by the call and an (idealised, collision-free at
the compared points) KDF, `verify_password(p, hash_password(p))` is `true`,
and `verify_password(w, hash_password(p))` is `false` whenever the KDF
separates `w` from `p` under that salt. -/
theorem C4_password_roundtrip (kdf : List Nat → List Nat → List Nat)
    (salt : List Nat) (hs : salt.length = 32) (hsv : ValidBytes salt)
    (hkv : ∀ pw sa, ValidBytes (kdf pw sa)) (p w : String)
    (hne : kdf (utf8Encode w) salt ≠ kdf (utf8Encode p) salt) :
    CryptoUtils.verify_password kdf p (CryptoUtils.hash_password kdf salt p)
      = true ∧
    CryptoUtils.verify_password kdf w (CryptoUtils.hash_password kdf salt p)
      = false := by
  have hv : ValidBytes (salt ++ kdf (utf8Encode p) salt) := by
    intro b hb
    rcases List.mem_append.mp hb with h1 | h1
    · exact hsv b h1
    · exact hkv _ _ b h1
  have hdec : b64decode (CryptoUtils.hash_password kdf salt p) =
      some (salt ++ kdf (utf8Encode p) salt) :=
    b64decode_b64encode _ hv
  constructor
  · simp only [CryptoUtils.verify_password]
    rw [hdec]
    simp only [List.take_left' hs, List.drop_left' hs]
    simp
  · simp only [CryptoUtils.verify_password]
    rw [hdec]
    simp only [List.take_left' hs, List.drop_left' hs]
    exact decide_eq_false hne

/-- C4 witness: the concrete KDF and salt with passwords `"a"` and `"bb"`. -/
theorem C4_witness :
    CryptoUtils.verify_password mockKdf "a"
      (CryptoUtils.hash_password mockKdf (List.replicate 32 7) "a") = true ∧
    CryptoUtils.verify_password mockKdf "bb"
      (CryptoUtils.hash_password mockKdf (List.replicate 32 7) "a") = false :=
  C4_password_roundtrip mockKdf (List.replicate 32 7) (by decide) (by decide)
    mockKdf_valid "a" "bb" (by decide)

/-- C5: `verify_password` is a total Boolean function that fails closed:
a record whose base64 decoding fails yields `false`, a record decoding to
fewer than 32 bytes (the salt length) yields `false`, and in particular
`verify_password(p, "not-valid-base64!!")` is `false` — never an
exception. -/
theorem C5_verify_fails_closed (kdf : List Nat → List Nat → List Nat)
    (hklen : ∀ pw sa, (kdf pw sa).length = 32) (p : String) :
    (∀ record, b64decode record = none →
      CryptoUtils.verify_password kdf p record = false) ∧
    (∀ record l, b64decode record = some l → l.length < 32 →
      CryptoUtils.verify_password kdf p record = false) ∧
    CryptoUtils.verify_password kdf p ("not-valid-base64!!".data) = false := by
  have h1 : ∀ record, b64decode record = none →
      CryptoUtils.verify_password kdf p record = false := by
    intro record hrec
    simp only [CryptoUtils.verify_password]
    rw [hrec]
  refine ⟨h1, ?_, h1 _ (by decide)⟩
  intro record l hrec hlen
  simp only [CryptoUtils.verify_password]
  rw [hrec]
  apply decide_eq_false
  intro he
  have hlen2 := congrArg List.length he
  rw [hklen, List.length_drop] at hlen2
  omega

/-- C5 witness: the concrete malformed record under the concrete KDF. -/
theorem C5_witness :
    CryptoUtils.verify_password mockKdf "x" ("not-valid-base64!!".data)
      = false :=
  (C5_verify_fails_closed mockKdf mockKdf_length "x").2.2

/-- C6: decrypting the empty string fails (`DecryptionError`): the empty
string base64-decodes to zero bytes, which `PKCS1_OAEP.decrypt` rejects as a
ciphertext of the wrong length — empty input is invalid, not an empty
message. -/
theorem C6_empty_input_rejected (dec : List Nat → Option (List Nat))
    (hmod : OAEPDecMod dec) :
    CryptoUtils.decrypt_message dec [] = none := by
  rw [CryptoUtils.decrypt_message, if_neg (by simp)]
  have h0 : b64decode [] = some [] := rfl
  rw [h0]
  show (dec []).bind _ = none
  rw [hmod [] (by simp)]
  rfl

/-- C6 witness: the concrete private-key primitive. -/
theorem C6_witness : CryptoUtils.decrypt_message mockDec [] = none :=
  C6_empty_input_rejected mockDec mockDec_mod

/-- C7: when the private key does not correspond to the public key — the
block primitive of the wrong private key rejects every block the public key
produced — decrypting the encryption of any `s` fails with
`DecryptionError`. -/
theorem C7_cross_key_rejected (encA decB : List Nat → Option (List Nat))
    (henc : ∀ m, ValidBytes m → m.length ≤ max_chunk_size →
      ∃ c, encA m = some c ∧ ValidBytes c)
    (hcross : ∀ m c, encA m = some c → decB c = none) (s : String) :
    ∃ em, CryptoUtils.encrypt_message encA s = some em ∧
      CryptoUtils.decrypt_message decB em = none := by
  have hv := validBytes_utf8Encode s
  simp only [CryptoUtils.encrypt_message]
  by_cases hlen : (utf8Encode s).length ≤ max_chunk_size
  · rw [if_pos hlen]
    obtain ⟨c, hc, hcv⟩ := henc _ hv hlen
    refine ⟨b64encode c, by rw [hc]; rfl, ?_⟩
    rw [decrypt_message_b64encode decB c hcv, hcross _ c hc]
    rfl
  · rw [if_neg hlen]
    have hch_prop := chunkList_mem_length (utf8Encode s)
    have hch_val := chunkList_mem_valid (utf8Encode s) hv
    have hsome : ∀ ch ∈ chunkList (utf8Encode s),
        ((encA ch).map b64encode).isSome := by
      intro ch hch
      obtain ⟨c, hc, _⟩ := henc ch (hch_val ch hch) (hch_prop ch hch).2
      rw [hc]
      rfl
    obtain ⟨parts, hparts, hfa⟩ := mapOption_exists_of_isSome _ _ hsome
    refine ⟨List.intercalate ['|'] parts, by rw [hparts]; rfl, ?_⟩
    have hlen2 : 2 ≤ parts.length := by
      rw [← hfa.length_eq]
      exact chunkList_two_le _ (not_le.mp hlen)
    have hnp := forall₂_enc_no_pipe hfa
    rw [CryptoUtils.decrypt_message,
      if_pos (mem_intercalate_of_two_le '|' parts hlen2),
      splitOnChar_intercalate '|' parts
        (by intro he; rw [he] at hlen2; simp at hlen2) hnp]
    have hne : parts ≠ [] := by
      intro he
      rw [he] at hlen2
      simp at hlen2
    obtain ⟨p, rest, rfl⟩ := List.exists_cons_of_ne_nil hne
    obtain ⟨ch, hchmem, hrel⟩ := forall₂_mem_right hfa p (by simp)
    obtain ⟨c, hc, hcv⟩ := henc ch (hch_val ch hchmem) (hch_prop ch hchmem).2
    rw [hc] at hrel
    have hp : b64encode c = p := by simpa using hrel
    have hfail : (b64decode p).bind decB = none := by
      rw [← hp, b64decode_b64encode c hcv]
      show decB c = none
      exact hcross ch c hc
    rw [mapOption_none _ _ p (by simp) hfail]
    rfl

/-- C7 witness: the concrete cipher pair against the non-matching private
primitive. -/
theorem C7_witness :
    ∃ em, CryptoUtils.encrypt_message mockEnc "secret" = some em ∧
      CryptoUtils.decrypt_message mockDecOther em = none :=
  C7_cross_key_rejected mockEnc mockDecOther mockEnc_some
    (fun _ _ _ => rfl) "secret"

/-- A plaintext that fits in one chunk is its own single chunk. -/
theorem chunkList_eq_single (l : List Nat) (hlen : l.length ≤ max_chunk_size) :
    ∀ ch ∈ chunkList l, ch = l := by
  match l with
  | [] => rw [chunkList]; simp
  | a :: rest =>
    intro ch hch
    rw [chunkList, List.drop_eq_nil_of_le hlen] at hch
    rw [show chunkList ([] : List Nat) = [] from by rw [chunkList]] at hch
    simp only [List.mem_singleton] at hch
    rw [hch, List.take_of_length_le hlen]

/-- C8: `encrypt_message` is all-or-nothing — if the primitive fails on any
chunk of the plaintext, the whole call fails and the caller receives no
partially-encrypted output (the chunk results are only ever joined after
every chunk has succeeded). -/
theorem C8_all_or_nothing (enc : List Nat → Option (List Nat)) (s : String)
    (ch : List Nat) (hmem : ch ∈ chunkList (utf8Encode s))
    (hfail : enc ch = none) :
    CryptoUtils.encrypt_message enc s = none := by
  simp only [CryptoUtils.encrypt_message]
  by_cases hlen : (utf8Encode s).length ≤ max_chunk_size
  · rw [if_pos hlen]
    rw [chunkList_eq_single _ hlen ch hmem] at hfail
    rw [hfail]
    rfl
  · rw [if_neg hlen]
    rw [mapOption_none _ _ ch hmem (by rw [hfail]; rfl)]
    rfl

/-- An encryption primitive that always fails (a broken key object). -/
def mockEncFail : List Nat → Option (List Nat) := fun _ => none

set_option maxRecDepth 4096 in
/-- C8 witness: a 215-byte message (two chunks) whose first chunk fails to
encrypt; the whole call yields no output. -/
theorem C8_witness :
    CryptoUtils.encrypt_message mockEncFail
      (String.mk (List.replicate 215 'a')) = none :=
  C8_all_or_nothing mockEncFail (String.mk (List.replicate 215 'a'))
    (List.replicate 214 97)
    (by
      have h : utf8Encode (String.mk (List.replicate 215 'a')) =
          97 :: List.replicate 214 97 := by decide
      rw [h, chunkList]
      have h2 : List.take max_chunk_size (97 :: List.replicate 214 97) =
          List.replicate 214 97 := by decide
      rw [h2]
      exact List.mem_cons_self _ _)
    rfl

/-- C9: for every password, the record returned by `hash_password` is one
base64 string that decodes to exactly the 32-byte salt followed by the
32-byte derived hash — 64 bytes in total. -/
theorem C9_record_64_bytes (kdf : List Nat → List Nat → List Nat)
    (salt : List Nat) (hs : salt.length = 32) (hsv : ValidBytes salt)
    (hklen : ∀ pw sa, (kdf pw sa).length = 32)
    (hkv : ∀ pw sa, ValidBytes (kdf pw sa)) (p : String) :
    b64decode (CryptoUtils.hash_password kdf salt p) =
      some (salt ++ kdf (utf8Encode p) salt) ∧
    (salt ++ kdf (utf8Encode p) salt).length = 64 := by
  constructor
  · apply b64decode_b64encode
    intro b hb
    rcases List.mem_append.mp hb with h1 | h1
    · exact hsv b h1
    · exact hkv _ _ b h1
  · rw [List.length_append, hs, hklen]

/-- C9 witness: the record format at the concrete salt and KDF. -/
theorem C9_witness :
    b64decode (CryptoUtils.hash_password mockKdf (List.replicate 32 7) "pw") =
      some (List.replicate 32 7 ++
        mockKdf (utf8Encode "pw") (List.replicate 32 7)) ∧
    (List.replicate 32 7 ++
      mockKdf (utf8Encode "pw") (List.replicate 32 7)).length = 64 :=
  C9_record_64_bytes mockKdf (List.replicate 32 7) (by decide) (by decide)
    mockKdf_length mockKdf_valid "pw"

/-- C10 (implicit): `verify_password` returns `true` only for records whose
base64 decoding yields exactly 64 bytes — the recomputed hash is always 32
bytes, and comparing it to a stored tail of any other length fails — and for
every record decoding to any other length it returns `false` without
raising. -/
theorem C10_true_only_64 (kdf : List Nat → List Nat → List Nat)
    (hklen : ∀ pw sa, (kdf pw sa).length = 32) (p : String)
    (record : List Char) :
    (CryptoUtils.verify_password kdf p record = true →
      ∃ l, b64decode record = some l ∧ l.length = 64) ∧
    (∀ l, b64decode record = some l → l.length ≠ 64 →
      CryptoUtils.verify_password kdf p record = false) := by
  have key : ∀ l, b64decode record = some l →
      CryptoUtils.verify_password kdf p record = true → l.length = 64 := by
    intro l hrec htrue
    simp only [CryptoUtils.verify_password] at htrue
    rw [hrec] at htrue
    have he := of_decide_eq_true htrue
    have hlen2 := congrArg List.length he
    rw [hklen, List.length_drop] at hlen2
    omega
  constructor
  · intro htrue
    cases hrec : b64decode record with
    | none =>
      simp only [CryptoUtils.verify_password] at htrue
      rw [hrec] at htrue
      cases htrue
    | some l => exact ⟨l, rfl, key l hrec htrue⟩
  · intro l hrec hne
    by_cases hb : CryptoUtils.verify_password kdf p record = true
    · exact absurd (key l hrec hb) hne
    · simpa using hb

/-- C10 witness: a genuine record decodes to 64 bytes and verifies. -/
theorem C10_witness :
    ∃ l, b64decode
        (CryptoUtils.hash_password mockKdf (List.replicate 32 7) "a") =
      some l ∧ l.length = 64 :=
  (C10_true_only_64 mockKdf mockKdf_length "a"
    (CryptoUtils.hash_password mockKdf (List.replicate 32 7) "a")).1
    (by decide)

end ChatApp
